import Mathlib

/-!
Verification of the chunked text processor and voice catalog helper of
`src/app.py`. Python strings are modelled as lists of Unicode code points
(`List Char`); a raised exception in a collaborator call is modelled as
`none` of an `Option` result.
-/

/-- A Python string: a sequence of code points. -/
abbrev Str : Type := List Char

/-- The whitespace characters removed by Python `str.strip()`
(restricted to the ASCII range). -/
def isSpace (c : Char) : Bool :=
  c = ' ' || c = '\t' || c = '\n' || c = '\r' || c = '\x0b' || c = '\x0c'

/-- Python `s.strip()`: remove leading and trailing whitespace. -/
def pyStrip (s : Str) : Str :=
  ((s.dropWhile isSpace).reverse.dropWhile isSpace).reverse

/-- Truthiness of a Python string: nonempty. -/
def truthy (s : Str) : Bool := !s.isEmpty

/-- Python `text.split('\n')` (app.py line 76). -/
def pySplit (text : Str) : List Str := text.splitOn '\n'

/-- The greedy accumulation loop of `process_text_in_chunks`
(app.py lines 79-85), consuming the remaining paragraphs given the running
buffer `current`; the unconditional trailing `chunks.append(current_chunk)`
of line 85 is the base case. -/
def chunksAux (chunk_size : Nat) : List Str → Str → List Str
  | [], current => [current]
  | p :: ps, current =>
    if current.length + p.length + 1 < chunk_size then
      chunksAux chunk_size ps (current ++ p ++ ['\n'])
    else
      current :: chunksAux chunk_size ps (p ++ ['\n'])

/-- The chunk list built by `process_text_in_chunks` (app.py lines 76-85). -/
def makeChunks (text : Str) (chunk_size : Nat) : List Str :=
  chunksAux chunk_size (pySplit text) []

/-- The processing loop of `process_text_in_chunks` (app.py lines 87-96):
each chunk with truthy `chunk.strip()` gets one processor call; a successful
call contributes its output, a failing call (`none`, the raised exception)
is skipped with a warning. Returns the collected outputs together with the
list of chunks the processor was invoked on, both in original order. -/
def processLoop (processor : Str → Option Str) : List Str → List Str × List Str
  | [] => ([], [])
  | c :: cs =>
    let rest := processLoop processor cs
    if truthy (pyStrip c) then
      match processor c with
      | some r => (r :: rest.1, c :: rest.2)
      | none => (rest.1, c :: rest.2)
    else rest

/-- `process_text_in_chunks` (app.py lines 68-97), instrumented: the first
component is the returned string (`" ".join(processed_chunks)`), the second
the list of chunks the processor was invoked on, in call order. -/
def process_text_in_chunks (text : Str) (processor : Str → Option Str)
    (chunk_size : Nat := 1024) : Str × List Str :=
  if text.isEmpty then ([], [])
  else
    let res := processLoop processor (makeChunks text chunk_size)
    (List.intercalate [' '] res.1, res.2)

/-- Lexicographic order on code-point sequences: Python string comparison. -/
def strLe : Str → Str → Bool
  | [], _ => true
  | _ :: _, [] => false
  | a :: as, b :: bs => if a < b then true else if b < a then false else strLe as bs

/-- Python `name.split('-')[-2]`: the second-to-last component of the split
(well-defined when the split has at least two components; the out-of-range
case is guarded at the call site, modelling the `IndexError` path). -/
def penult (name : Str) : Str := ((name.splitOn '-').reverse)[1]?.getD []

/-- The sort key of app.py line 113,
`key=lambda name: (name.split('-')[-2], name)`, compared as Python compares
tuples of strings: lexicographically. -/
def voiceKeyLe (a b : Str) : Bool :=
  if penult a = penult b then strLe a b else strLe (penult a) (penult b)

/-- The hard-coded fallback voice of app.py line 117. -/
def fallbackVoice : Str := "en-US-Wavenet-F".data

/-- `get_available_voices` (app.py lines 109-117). The argument models the
outcome of `tts_client.list_voices(language_code="en-US")`: `none` when that
call raises, `some names` when it returns the listed voice names. Python
`sorted` is a stable sort by key; evaluating the key raises `IndexError`
when a name has fewer than two `'-'`-separated components, which the
surrounding `try` turns into the fallback as well. -/
def get_available_voices (resp : Option (List Str)) : List Str :=
  match resp with
  | none => [fallbackVoice]
  | some names =>
    if names.all (fun nm => 2 ≤ (nm.splitOn '-').length) then
      names.mergeSort voiceKeyLe
    else [fallbackVoice]

theorem chunksAux_ne_nil (n : Nat) (ps : List Str) (cur : Str) :
    chunksAux n ps cur ≠ [] := by
  induction ps generalizing cur with
  | nil => simp [chunksAux]
  | cons p ps ih =>
    simp only [chunksAux]
    split
    · exact ih _
    · simp

theorem chunksAux_newline (n : Nat) :
    ∀ (ps : List Str) (cur s : Str), cur = s ++ ['\n'] →
      ∀ c ∈ chunksAux n ps cur, ∃ t, c = t ++ ['\n'] := by
  intro ps
  induction ps with
  | nil =>
    intro cur s hs c hc
    simp only [chunksAux, List.mem_singleton] at hc
    subst hc
    exact ⟨s, hs⟩
  | cons p ps ih =>
    intro cur s hs c hc
    simp only [chunksAux] at hc
    split at hc
    · exact ih (cur ++ p ++ ['\n']) (cur ++ p) rfl c hc
    · simp only [List.mem_cons] at hc
      rcases hc with rfl | hc
      · exact ⟨s, hs⟩
      · exact ih (p ++ ['\n']) p rfl c hc

theorem chunksAux_flatten (n : Nat) (ps : List Str) (cur : Str) :
    (chunksAux n ps cur).flatten = cur ++ (ps.map (fun p => p ++ ['\n'])).flatten := by
  induction ps generalizing cur with
  | nil => simp [chunksAux]
  | cons p ps ih =>
    simp only [chunksAux]
    split
    · rw [ih]; simp
    · simp [ih]

theorem intercalate_pieces (x : Char) :
    ∀ pieces : List Str, pieces ≠ [] →
      (pieces.map (fun p => p ++ [x])).flatten = [x].intercalate pieces ++ [x]
  | [], h => absurd rfl h
  | [a], _ => by simp [List.intercalate]
  | a :: b :: rest, _ => by
    have ih := intercalate_pieces x (b :: rest) (by simp)
    simp only [List.map_cons, List.flatten_cons] at ih ⊢
    rw [ih]
    simp [List.intercalate, List.intersperse]

theorem pySplit_ne_nil (text : Str) : pySplit text ≠ [] := by
  simp only [pySplit, List.splitOn]
  exact List.splitOnP_ne_nil _ text

theorem flatten_pySplit (text : Str) :
    ((pySplit text).map (fun p => p ++ ['\n'])).flatten = text ++ ['\n'] := by
  rw [intercalate_pieces '\n' (pySplit text) (pySplit_ne_nil text)]
  rw [pySplit, List.intercalate_splitOn]

theorem chunksAux_groups (n : Nat) (ps : List Str) (g₀ : List Str) :
    ∃ groups : List (List Str), groups.flatten = g₀ ++ ps ∧
      chunksAux n ps ((g₀.map (fun p => p ++ ['\n'])).flatten)
        = groups.map (fun g => (g.map (fun p => p ++ ['\n'])).flatten) := by
  induction ps generalizing g₀ with
  | nil => exact ⟨[g₀], by simp, by simp [chunksAux]⟩
  | cons p ps ih =>
    simp only [chunksAux]
    split
    · obtain ⟨groups, h1, h2⟩ := ih (g₀ ++ [p])
      refine ⟨groups, by simpa using h1, ?_⟩
      rw [← h2]
      congr 1
      simp
    · obtain ⟨groups, h1, h2⟩ := ih [p]
      refine ⟨g₀ :: groups, by simp [h1], ?_⟩
      simp only [List.map_cons, List.cons.injEq, true_and]
      rw [← h2]
      congr 1
      simp

/-- Claim C1: concatenating the chunks of the paragraph-based splitting in
index order reproduces the original text modulo the inserted paragraph
separators (exactly one trailing newline is added), and no chunk boundary
falls inside a paragraph unit: the chunk list arises from a partition of
the paragraph list into consecutive groups, each chunk being its group's
paragraphs each followed by a newline. -/
theorem c1_concat_and_boundaries (text : Str) (chunk_size : Nat) :
    (makeChunks text chunk_size).flatten = text ++ ['\n'] ∧
    ∃ groups : List (List Str), groups.flatten = pySplit text ∧
      makeChunks text chunk_size
        = groups.map (fun g => (g.map (fun p => p ++ ['\n'])).flatten) := by
  constructor
  · rw [makeChunks, chunksAux_flatten, flatten_pySplit]
    rfl
  · obtain ⟨groups, h1, h2⟩ := chunksAux_groups chunk_size (pySplit text) []
    exact ⟨groups, by simpa using h1, by simpa [makeChunks] using h2⟩

theorem processLoop_eq (processor : Str → Option Str) (cs : List Str) :
    processLoop processor cs
      = (cs.filterMap (fun c => if truthy (pyStrip c) then processor c else none),
         cs.filter (fun c => truthy (pyStrip c))) := by
  induction cs with
  | nil => rfl
  | cons c cs ih =>
    simp only [processLoop, ih, List.filterMap_cons, List.filter_cons]
    by_cases h : truthy (pyStrip c) <;> simp only [h, if_true, if_false] <;>
      cases processor c <;> simp

theorem dropWhile_forall_iff (p : Char → Bool) (s : Str) :
    (∀ x ∈ s.dropWhile p, p x) ↔ ∀ x ∈ s, p x := by
  constructor
  · intro h x hx
    rw [← List.takeWhile_append_dropWhile p s] at hx
    rcases List.mem_append.mp hx with h1 | h2
    · exact List.mem_takeWhile_imp h1
    · exact h x h2
  · intro h x hx
    exact h x ((List.dropWhile_sublist p).subset hx)

theorem pyStrip_eq_nil_iff (s : Str) : pyStrip s = [] ↔ ∀ c ∈ s, isSpace c := by
  simp only [pyStrip, List.reverse_eq_nil_iff, List.dropWhile_eq_nil_iff,
    List.mem_reverse]
  exact dropWhile_forall_iff isSpace s

theorem truthy_pyStrip (c : Str) :
    truthy (pyStrip c) = c.any (fun ch => !(isSpace ch)) := by
  rcases h : c.any (fun ch => !(isSpace ch)) with _ | _
  · have hall : ∀ ch ∈ c, isSpace ch := by
      intro ch hch
      have := List.any_eq_false.mp h ch hch
      simpa using this
    simp [truthy, List.isEmpty_iff, (pyStrip_eq_nil_iff c).mpr hall]
  · obtain ⟨ch, hch, hns⟩ := List.any_eq_true.mp h
    have : pyStrip c ≠ [] := by
      intro hnil
      have := (pyStrip_eq_nil_iff c).mp hnil ch hch
      simp [this] at hns
    simpa [truthy, List.isEmpty_iff] using this

theorem filterMap_guard (p : Str → Bool) (f : Str → Option Str) (cs : List Str) :
    cs.filterMap (fun c => if p c then f c else none)
      = (cs.filter p).filterMap f := by
  induction cs with
  | nil => rfl
  | cons c cs ih =>
    by_cases h : p c <;>
      simp [List.filter_cons, h, List.filterMap_cons, ih]

/-- Claim C9: in `process_text_in_chunks`, a chunk whose content is only
whitespace is skipped entirely: the processor is invoked exactly on the
chunks containing at least one non-whitespace character, once each and in
order, and the joined output is determined by those chunks alone. -/
theorem c9_whitespace_chunks_skipped (text : Str) (processor : Str → Option Str)
    (chunk_size : Nat) (htext : text ≠ []) :
    (process_text_in_chunks text processor chunk_size).2
      = (makeChunks text chunk_size).filter
          (fun c => c.any (fun ch => !(isSpace ch))) ∧
    (process_text_in_chunks text processor chunk_size).1
      = List.intercalate [' ']
          (((makeChunks text chunk_size).filter
              (fun c => c.any (fun ch => !(isSpace ch)))).filterMap processor) := by
  have hne : text.isEmpty = false := by simpa [List.isEmpty_iff] using htext
  have hpred : (fun c => truthy (pyStrip c))
      = (fun c : Str => c.any (fun ch => !(isSpace ch))) := by
    funext c; exact truthy_pyStrip c
  constructor
  · simp only [process_text_in_chunks, hne, Bool.false_eq_true, if_false,
      processLoop_eq, hpred]
  · simp only [process_text_in_chunks, hne, Bool.false_eq_true, if_false,
      processLoop_eq]
    rw [filterMap_guard, hpred]

theorem c9_whitespace_chunks_skipped_witness :
    (process_text_in_chunks ("aaaa".data) (fun c => some c) 5).2
      = (makeChunks ("aaaa".data) 5).filter
          (fun c => c.any (fun ch => !(isSpace ch))) ∧
    (process_text_in_chunks ("aaaa".data) (fun c => some c) 5).1
      = List.intercalate [' ']
          (((makeChunks ("aaaa".data) 5).filter
              (fun c => c.any (fun ch => !(isSpace ch)))).filterMap
            (fun c => some c)) :=
  c9_whitespace_chunks_skipped ("aaaa".data) (fun c => some c) 5 (by decide)

/-- Claim C4: on empty input, `process_text_in_chunks` returns the empty
string and the processor is invoked zero times, for every processor and
every chunk size. -/
theorem c4_empty_input (processor : Str → Option Str) (chunk_size : Nat) :
    process_text_in_chunks [] processor chunk_size = ([], []) := rfl

/-- Claim C7: `process_text_in_chunks` is a pure function of its arguments;
two calls with identical text, processor and chunk size yield identical
results (the processor holds no state between calls). -/
theorem c7_deterministic (t₁ t₂ : Str) (f₁ f₂ : Str → Option Str)
    (n₁ n₂ : Nat) (ht : t₁ = t₂) (hf : f₁ = f₂) (hn : n₁ = n₂) :
    process_text_in_chunks t₁ f₁ n₁ = process_text_in_chunks t₂ f₂ n₂ := by
  rw [ht, hf, hn]

theorem c7_deterministic_witness :
    process_text_in_chunks ("a\nb".data) (fun c => some c) 8
      = process_text_in_chunks ("a\nb".data) (fun c => some c) 8 :=
  c7_deterministic _ _ _ _ _ _ rfl rfl rfl

theorem chunksAux_length_bound (n : Nat) (allPs : List Str) :
    ∀ ps : List Str, (∀ p ∈ ps, p ∈ allPs) →
    ∀ cur : Str,
      (cur.length < n ∨ ∃ p ∈ allPs, cur = p ++ ['\n'] ∧ n ≤ p.length + 1) →
      ∀ c ∈ chunksAux n ps cur, c.length < n ∨
        ∃ p ∈ allPs, c = p ++ ['\n'] ∧ n ≤ p.length + 1
  | [], _, cur, hcur, c, hc => by
      simp only [chunksAux, List.mem_singleton] at hc
      subst hc; exact hcur
  | p :: ps, hsub, cur, hcur, c, hc => by
      simp only [chunksAux] at hc
      by_cases h : cur.length + p.length + 1 < n
      · rw [if_pos h] at hc
        refine chunksAux_length_bound n allPs ps
          (fun q hq => hsub q (by simp [hq])) _ ?_ c hc
        left
        have hlen : (cur ++ p ++ ['\n']).length = cur.length + p.length + 1 := by
          simp; omega
        omega
      · rw [if_neg h] at hc
        simp only [List.mem_cons] at hc
        rcases hc with rfl | hc
        · exact hcur
        · refine chunksAux_length_bound n allPs ps
            (fun q hq => hsub q (by simp [hq])) _ ?_ c hc
          by_cases hp : p.length + 1 < n
          · left; simpa using hp
          · exact Or.inr ⟨p, hsub p (by simp), rfl, by omega⟩

/-- Claim C2 fails as stated: for the text `"aaaa\nbbbb"` with
`chunk_size = 5` the splitting step yields `["", "aaaa\n", "bbbb\n"]`, in
which two distinct chunks have length `≥ chunk_size` (not just a single
one), even though no paragraph unit alone exceeds `chunk_size`. -/
theorem c2_counterexample :
    ¬ ((makeChunks ("aaaa\nbbbb".data) 5).countP (fun c => 5 ≤ c.length) ≤ 1 ∧
       ∀ c ∈ makeChunks ("aaaa\nbbbb".data) 5, 5 ≤ c.length →
         ∃ p ∈ pySplit ("aaaa\nbbbb".data), 5 < p.length) := by decide

/-- Claim C2 amended: for `chunk_size > 0`, every chunk's length is
strictly below `chunk_size` except chunks consisting of a single paragraph
unit plus the appended newline whose length (the unit's length plus one)
already reaches `chunk_size`; several such oversized chunks may occur, one
per oversized paragraph unit. -/
theorem c2_chunk_length_bound (text : Str) (chunk_size : Nat)
    (hn : 0 < chunk_size) :
    ∀ c ∈ makeChunks text chunk_size, c.length < chunk_size ∨
      ∃ p ∈ pySplit text, c = p ++ ['\n'] ∧ chunk_size ≤ p.length + 1 :=
  chunksAux_length_bound chunk_size (pySplit text) (pySplit text)
    (fun _ h => h) [] (Or.inl (by simpa using hn))

theorem c2_chunk_length_bound_witness :
    0 < 5 ∧ ∀ c ∈ makeChunks ("aaaa\nbbbb".data) 5, c.length < 5 ∨
      ∃ p ∈ pySplit ("aaaa\nbbbb".data), c = p ++ ['\n'] ∧ 5 ≤ p.length + 1 :=
  ⟨by decide, c2_chunk_length_bound ("aaaa\nbbbb".data) 5 (by decide)⟩

theorem makeChunks_nil_all_space (n : Nat) :
    ∀ c ∈ makeChunks [] n, ∀ ch ∈ c, isSpace ch := by
  intro c hc
  have h : makeChunks [] n = chunksAux n [[]] [] := rfl
  rw [h] at hc
  simp only [chunksAux, List.nil_append] at hc
  split at hc
  · simp only [chunksAux, List.mem_singleton] at hc
    subst hc
    decide
  · simp only [chunksAux, List.mem_cons, List.mem_singleton] at hc
    rcases hc with rfl | rfl | hc
    · intro ch hch; cases hch
    · decide
    · cases hc

/-- Claim C3 fails as stated: with text `"aaaa"` and `chunk_size = 5` the
chunk list is `["", "aaaa\n"]` (N = 2); for a processor failing exactly on
`"aaaa\n"` and succeeding elsewhere, exactly one of the N chunks fails, yet
the processor is invoked on only one chunk (the whitespace-only first chunk
is skipped without a call) and the returned result is `""`, not the join of
the other N − 1 transformed outputs. -/
theorem c3_counterexample :
    ¬ (((makeChunks ("aaaa".data) 5).countP
          (fun c => ((if c = ("aaaa\n".data) then none else some ("X".data)) :
            Option Str).isNone) = 1) →
       ((process_text_in_chunks ("aaaa".data)
            (fun c => if c = ("aaaa\n".data) then none else some ("X".data)) 5).2.length
          = (makeChunks ("aaaa".data) 5).length ∧
        (process_text_in_chunks ("aaaa".data)
            (fun c => if c = ("aaaa\n".data) then none else some ("X".data)) 5).1
          = List.intercalate [' ']
              ((makeChunks ("aaaa".data) 5).filterMap
                (fun c => if c = ("aaaa\n".data) then none else some ("X".data))))) := by
  decide

/-- Claim C3 amended: when every chunk contains a non-whitespace character
(so none is skipped by the `chunk.strip()` test) and exactly one of the N
chunks fails in the processor call, the returned result is the join of the
other N − 1 transformed outputs in original chunk order, and the processor
is invoked on all N chunks. -/
theorem c3_skip_on_failure (text : Str) (processor : Str → Option Str)
    (chunk_size : Nat)
    (hws : ∀ c ∈ makeChunks text chunk_size, c.any (fun ch => !(isSpace ch)))
    (hone : (makeChunks text chunk_size).countP
      (fun c => (processor c).isNone) = 1) :
    process_text_in_chunks text processor chunk_size
      = (List.intercalate [' ']
           ((makeChunks text chunk_size).filterMap processor),
         makeChunks text chunk_size) := by
  have htext : text ≠ [] := by
    intro hnil
    subst hnil
    have hmem : (['\n'] : Str) ∈ makeChunks [] chunk_size ∨
        ([] : Str) ∈ makeChunks [] chunk_size := by
      have h : makeChunks [] chunk_size = chunksAux chunk_size [[]] [] := rfl
      rw [h]
      simp only [chunksAux, List.nil_append]
      split <;> simp [chunksAux]
    rcases hmem with hmem | hmem
    · have := hws _ hmem
      simp [isSpace] at this
    · have := hws _ hmem
      simp at this
  obtain ⟨h2, h1⟩ := c9_whitespace_chunks_skipped text processor chunk_size htext
  have hfilter : (makeChunks text chunk_size).filter
      (fun c => c.any (fun ch => !(isSpace ch))) = makeChunks text chunk_size :=
    List.filter_eq_self.mpr hws
  have hp : process_text_in_chunks text processor chunk_size
      = ((process_text_in_chunks text processor chunk_size).1,
         (process_text_in_chunks text processor chunk_size).2) := rfl
  rw [hp, h1, h2, hfilter]

theorem c3_skip_on_failure_witness :
    process_text_in_chunks ("Hello\nWorld".data) (fun _ => none) 20
      = (List.intercalate [' ']
           ((makeChunks ("Hello\nWorld".data) 20).filterMap
             (fun _ => (none : Option Str))),
         makeChunks ("Hello\nWorld".data) 20) :=
  c3_skip_on_failure ("Hello\nWorld".data) (fun _ => none) 20
    (by decide) (by decide)

/-- Claim C5: when every processor call made succeeds, the returned string
is the transformed outputs, in chunk index order, joined with a single
space separator (the chunks consulted being exactly those with
non-whitespace content); the result is always a string, never absent. -/
theorem c5_all_success_join (text : Str) (processor : Str → Option Str)
    (produced : Str → Str) (chunk_size : Nat)
    (hok : ∀ c ∈ makeChunks text chunk_size,
      c.any (fun ch => !(isSpace ch)) → processor c = some (produced c)) :
    (process_text_in_chunks text processor chunk_size).1
      = List.intercalate [' ']
          (((makeChunks text chunk_size).filter
              (fun c => c.any (fun ch => !(isSpace ch)))).map produced) := by
  by_cases htext : text = []
  · subst htext
    have hfil : (makeChunks [] chunk_size).filter
        (fun c => c.any (fun ch => !(isSpace ch))) = [] := by
      rw [List.filter_eq_nil_iff]
      intro c hc
      simp only [List.any_eq_true, not_exists, not_and]
      intro ch hch
      simp [makeChunks_nil_all_space chunk_size c hc ch hch]
    simp [process_text_in_chunks, hfil, List.intercalate]
  · obtain ⟨_, h1⟩ := c9_whitespace_chunks_skipped text processor chunk_size htext
    rw [h1]
    congr 1
    have : ∀ c ∈ (makeChunks text chunk_size).filter
        (fun c => c.any (fun ch => !(isSpace ch))), processor c = some (produced c) := by
      intro c hc
      rw [List.mem_filter] at hc
      exact hok c hc.1 hc.2
    calc ((makeChunks text chunk_size).filter
            (fun c => c.any (fun ch => !(isSpace ch)))).filterMap processor
        = ((makeChunks text chunk_size).filter
            (fun c => c.any (fun ch => !(isSpace ch)))).filterMap
              (fun c => some (produced c)) := List.filterMap_congr this
      _ = ((makeChunks text chunk_size).filter
            (fun c => c.any (fun ch => !(isSpace ch)))).map produced := by
          rw [show (fun c => some (produced c)) = some ∘ produced from rfl,
            List.filterMap_eq_map]

theorem c5_all_success_join_witness :
    (process_text_in_chunks ("Hi\nthere".data)
        (fun c => some (c ++ "!".data)) 30).1
      = List.intercalate [' ']
          (((makeChunks ("Hi\nthere".data) 30).filter
              (fun c => c.any (fun ch => !(isSpace ch)))).map
            (fun c => c ++ "!".data)) :=
  c5_all_success_join ("Hi\nthere".data) (fun c => some (c ++ "!".data))
    (fun c => c ++ "!".data) 30 (by decide)

/-- Claim C6 fails as stated: on the spec's example text with
`chunk_size = 20`, the splitting step does not produce
`["Paragraph one.\n", "Paragraph two.\n", "Paragraph three."]` — the loop
appends a newline to every accumulated paragraph, including the last one. -/
theorem c6_counterexample :
    makeChunks ("Paragraph one.\nParagraph two.\nParagraph three.".data) 20
      ≠ ["Paragraph one.\n".data, "Paragraph two.\n".data,
         "Paragraph three.".data] := by decide

/-- Claim C6 amended: the splitting step on the example text with
`chunk_size = 20` produces the three per-paragraph chunks, each carrying a
trailing newline — including the final one. -/
theorem c6_example_chunks :
    makeChunks ("Paragraph one.\nParagraph two.\nParagraph three.".data) 20
      = ["Paragraph one.\n".data, "Paragraph two.\n".data,
         "Paragraph three.\n".data] := by decide

/-- Claim C10: every chunk the splitting step emits either ends with a
newline character or is the empty string; an empty chunk can occur only at
index 0, and the first chunk is empty exactly when the first paragraph
unit's length plus one already reaches chunk_size; in particular the final
chunk always carries a trailing newline. -/
theorem c10_chunk_shape (text : Str) (chunk_size : Nat) :
    (∀ c ∈ makeChunks text chunk_size, c = [] ∨ ∃ t, c = t ++ ['\n']) ∧
    (∀ i : Nat, (makeChunks text chunk_size)[i]? = some [] → i = 0) ∧
    ((makeChunks text chunk_size).head? = some []
       ↔ chunk_size ≤ (pySplit text).headI.length + 1) ∧
    (∃ t, (makeChunks text chunk_size).getLast? = some (t ++ ['\n'])) := by
  obtain ⟨p0, ps, hsplit⟩ := List.exists_cons_of_ne_nil (pySplit_ne_nil text)
  have hrest : ∀ c ∈ chunksAux chunk_size ps (p0 ++ ['\n']), ∃ t, c = t ++ ['\n'] :=
    chunksAux_newline chunk_size ps (p0 ++ ['\n']) p0 rfl
  have hrne : chunksAux chunk_size ps (p0 ++ ['\n']) ≠ [] :=
    chunksAux_ne_nil chunk_size ps (p0 ++ ['\n'])
  have hmk : makeChunks text chunk_size
      = if 0 + p0.length + 1 < chunk_size then
          chunksAux chunk_size ps (p0 ++ ['\n'])
        else [] :: chunksAux chunk_size ps (p0 ++ ['\n']) := by
    simp only [makeChunks, hsplit, chunksAux, List.nil_append, List.length_nil]
  have hheadI : (pySplit text).headI = p0 := by rw [hsplit]; rfl
  rw [hheadI]
  by_cases hcond : 0 + p0.length + 1 < chunk_size
  · rw [if_pos hcond] at hmk
    rw [hmk]
    refine ⟨fun c hc => Or.inr (hrest c hc), ?_, ?_, ?_⟩
    · intro i hget
      obtain ⟨t, ht⟩ := hrest _ (List.getElem?_mem hget)
      exact absurd ht (by simp)
    · constructor
      · intro hh
        obtain ⟨t, ht⟩ := hrest _ (List.head_mem hrne)
        rw [List.head?_eq_head hrne, ht] at hh
        exact absurd (Option.some.inj hh).symm (by simp)
      · intro hh
        omega
    · obtain ⟨t, ht⟩ := hrest _ (List.getLast_mem hrne)
      exact ⟨t, by rw [List.getLast?_eq_getLast _ hrne, ht]⟩
  · rw [if_neg hcond] at hmk
    rw [hmk]
    refine ⟨?_, ?_, ?_, ?_⟩
    · intro c hc
      rcases List.mem_cons.mp hc with rfl | hc
      · exact Or.inl rfl
      · exact Or.inr (hrest c hc)
    · intro i hget
      cases i with
      | zero => rfl
      | succ j =>
        exfalso
        rw [List.getElem?_cons_succ] at hget
        obtain ⟨t, ht⟩ := hrest _ (List.getElem?_mem hget)
        exact absurd ht (by simp)
    · simp only [List.head?_cons]
      constructor
      · intro _
        omega
      · intro _
        trivial
    · obtain ⟨r, rs, hr⟩ := List.exists_cons_of_ne_nil hrne
      obtain ⟨t, ht⟩ := hrest _ (List.getLast_mem hrne)
      refine ⟨t, ?_⟩
      rw [hr, List.getLast?_cons_cons, ← hr]
      rw [List.getLast?_eq_getLast _ hrne, ht]

theorem c10_chunk_shape_witness :
    ((makeChunks ("aaaa".data) 5).head? = some []
       ↔ 5 ≤ (pySplit ("aaaa".data)).headI.length + 1) ∧ (0 : Nat) = 0 :=
  ⟨(c10_chunk_shape ("aaaa".data) 5).2.2.1,
   (c10_chunk_shape ("aaaa".data) 5).2.1 0 (by decide)⟩

theorem strLe_refl (a : Str) : strLe a a := by
  induction a with
  | nil => rfl
  | cons x xs ih => simpa [strLe, lt_irrefl] using ih

theorem strLe_total (a : Str) : ∀ b : Str, strLe a b || strLe b a := by
  induction a with
  | nil => intro b; simp [strLe]
  | cons x xs ih =>
    intro b
    cases b with
    | nil => simp [strLe]
    | cons y ys =>
      rcases lt_trichotomy x y with h | h | h
      · simp [strLe, h]
      · subst h
        simpa [strLe, lt_irrefl] using ih ys
      · simp [strLe, h, h.asymm]

theorem strLe_trans : ∀ a b c : Str, strLe a b → strLe b c → strLe a c := by
  intro a
  induction a with
  | nil => intro b c _ _; rfl
  | cons x xs ih =>
    intro b c hab hbc
    cases b with
    | nil => simp [strLe] at hab
    | cons y ys =>
      cases c with
      | nil => simp [strLe] at hbc
      | cons z zs =>
        rcases lt_trichotomy x y with h1 | h1 | h1
        · rcases lt_trichotomy y z with h2 | h2 | h2
          · simp [strLe, h1.trans h2]
          · subst h2; simp [strLe, h1]
          · simp [strLe, h2, h2.asymm] at hbc
        · subst h1
          rcases lt_trichotomy x z with h2 | h2 | h2
          · simp [strLe, h2]
          · subst h2
            simp only [strLe, lt_irrefl, if_false] at hab hbc ⊢
            exact ih ys zs hab hbc
          · simp [strLe, h2, h2.asymm] at hbc
        · simp [strLe, h1, h1.asymm] at hab

theorem strLe_antisymm : ∀ a b : Str, strLe a b → strLe b a → a = b := by
  intro a
  induction a with
  | nil =>
    intro b _ hba
    cases b with
    | nil => rfl
    | cons y ys => simp [strLe] at hba
  | cons x xs ih =>
    intro b hab hba
    cases b with
    | nil => simp [strLe] at hab
    | cons y ys =>
      rcases lt_trichotomy x y with h | h | h
      · simp [strLe, h, h.asymm] at hba
      · subst h
        simp only [strLe, lt_irrefl, if_false] at hab hba
        rw [ih ys hab hba]
      · simp [strLe, h, h.asymm] at hab

theorem voiceKeyLe_trans (a b c : Str) (hab : voiceKeyLe a b)
    (hbc : voiceKeyLe b c) : voiceKeyLe a c := by
  unfold voiceKeyLe at hab hbc ⊢
  by_cases h1 : penult a = penult b <;> by_cases h2 : penult b = penult c
  · rw [if_pos h1] at hab
    rw [if_pos h2] at hbc
    rw [if_pos (h1.trans h2)]
    exact strLe_trans a b c hab hbc
  · rw [if_neg (fun hh => h2 (h1.symm.trans hh))]
    rw [if_neg h2] at hbc
    rw [h1]
    exact hbc
  · rw [if_neg (fun hh => h1 (hh.trans h2.symm))]
    rw [if_neg h1] at hab
    rw [← h2]
    exact hab
  · rw [if_neg h1] at hab
    rw [if_neg h2] at hbc
    have hac : penult a ≠ penult c := by
      intro hh
      exact h2 (strLe_antisymm (penult b) (penult c) hbc (hh ▸ hab))
    rw [if_neg hac]
    exact strLe_trans (penult a) (penult b) (penult c) hab hbc

theorem voiceKeyLe_total (a b : Str) : voiceKeyLe a b || voiceKeyLe b a := by
  unfold voiceKeyLe
  by_cases h : penult a = penult b
  · rw [if_pos h, if_pos h.symm]
    exact strLe_total a b
  · rw [if_neg h, if_neg (Ne.symm h)]
    exact strLe_total (penult a) (penult b)

/-- Claim C8: `get_available_voices` returns the catalog's en-US voice
names sorted by the key `(name.split('-')[-2], name)` — its output is
always in key order, and on a successful listing of well-formed voice
identifiers it is a permutation of the listed names — and returns the
single fallback identifier `"en-US-Wavenet-F"` when the listing call
fails. -/
theorem c8_voices (resp : Option (List Str)) :
    List.Pairwise (fun a b => voiceKeyLe a b = true) (get_available_voices resp) ∧
    (resp = none → get_available_voices resp = [fallbackVoice]) ∧
    (∀ names, resp = some names →
      (∀ nm ∈ names, 2 ≤ (nm.splitOn '-').length) →
      (get_available_voices resp).Perm names) := by
  refine ⟨?_, ?_, ?_⟩
  · cases resp with
    | none => simp [get_available_voices]
    | some names =>
      simp only [get_available_voices]
      split
      · exact List.sorted_mergeSort
          (fun a b c hab hbc => voiceKeyLe_trans a b c hab hbc)
          (fun a b => voiceKeyLe_total a b) names
      · simp
  · intro h
    subst h
    rfl
  · intro names h hwf
    subst h
    simp only [get_available_voices]
    rw [if_pos (List.all_eq_true.mpr (fun nm hnm => by
      simpa using hwf nm hnm))]
    exact List.mergeSort_perm names voiceKeyLe

theorem c8_voices_witness :
    get_available_voices none = [fallbackVoice] ∧
    (get_available_voices
        (some ["en-US-Wavenet-A".data, "en-US-Standard-B".data])).Perm
      ["en-US-Wavenet-A".data, "en-US-Standard-B".data] :=
  ⟨(c8_voices none).2.1 rfl,
   (c8_voices (some ["en-US-Wavenet-A".data, "en-US-Standard-B".data])).2.2
     ["en-US-Wavenet-A".data, "en-US-Standard-B".data] rfl (by decide)⟩
